import Mathlib

/-!
Shallow embedding of the peer-session engine and per-torrent coordinator of a
BitTorrent client (Rust sources: `src/torrent_handler/status.rs`,
`src/peer/peer_session.rs`, `src/peer/peer_message/bitfield.rs`,
`src/peer/message.rs`, `src/peer/message/handshake.rs`).

Conventions of the embedding:
* Machine integers (`u8`, `u32`, `usize`) are `Nat` with explicit `% 2^w`
  wrapping where the source can overflow; byte vectors are `List Nat` whose
  entries are intended to be below 256.
* The Rust `HashMap<u32, PieceStatus>` is an association list carried in its
  (unspecified) iteration order; `insert` of a present key replaces the entry
  in place, which is how every coordinator call site uses it.
* A Rust operation that can panic (out-of-bounds slice or index) is embedded
  with an `Option` result, `none` meaning panic; fallible operations return
  `Except`.
* Disk I/O (`save_piece` / `retrieve_block`) is modelled by a log of
  positional writes carried in the coordinator state; the success of the
  write syscall is an explicit boolean input of the operation.
-/

set_option maxRecDepth 10000

namespace BtClient

/-- Possible states of a piece (`PieceStatus` in `status.rs`). -/
inductive PieceStatus where
  | Finished
  | Downloading
  | Free
deriving DecidableEq, Repr

/-- Torrent status error enum (`AtomicTorrentStatusError` in `status.rs`).
I/O error payloads are collapsed to `Unit`. -/
inductive AtomicTorrentStatusError where
  | PoisonedPiecesStatusLock
  | PoisonedCurrentPeersLock
  | InvalidPieceIndex
  | NoPeersConnected
  | PieceWasNotDownloading
  | SavePieceError
  | RetrievingPieceError
  | PieceWasNotFinished
deriving DecidableEq, Repr

/-- Width of `usize` wrapping arithmetic (the atomic `fetch_add` and
`fetch_sub` wrap around on overflow). -/
def USIZE : Nat := 2 ^ 64

/-- Wrapping increment of a `usize` counter (`fetch_add(1, ...)`). -/
def addWrap (n : Nat) : Nat := (n + 1) % USIZE

/-- Wrapping decrement of a `usize` counter (`fetch_sub(1, ...)`). -/
def subWrap (n : Nat) : Nat := (n + (USIZE - 1)) % USIZE

/-- The piece-status map: the Rust `HashMap<u32, PieceStatus>` as an
association list in its iteration order. -/
abbrev StatusMap := List (Nat × PieceStatus)

/-- Map lookup (`HashMap::get`). -/
def mapGet (m : StatusMap) (i : Nat) : Option PieceStatus :=
  (m.find? (fun p => p.1 = i)).map (·.2)

/-- Map insert of a key that is already present (`HashMap::insert` at the
coordinator's call sites): the value is replaced in place, iteration order
is unchanged. -/
def mapInsert (m : StatusMap) (i : Nat) (v : PieceStatus) : StatusMap :=
  m.map (fun p => if p.1 = i then (i, v) else p)

/-- Number of entries whose status equals `s` (the
`values().filter(status == s).count()` idiom of `status.rs`). -/
def countStatus (m : StatusMap) (s : PieceStatus) : Nat :=
  (m.filter (fun p => p.2 = s)).length

/-- Reading bit `7 - (index % 8)` of byte `index / 8` of a byte vector
(`Bitfield::has_piece` in `peer_message/bitfield.rs`).  The byte access
`self.bitfield[byte_index]` panics when out of bounds, hence the `Option`. -/
def hasPiece (bitfield : List Nat) (index : Nat) : Option Bool :=
  match bitfield.get? (index / 8) with
  | none => none
  | some byte => some (((byte >>> (7 - index % 8)) &&& 1) != 0)

/-- One step of the fold in `Bitfield::from`: if the entry is `Finished`,
OR bit `7 - (piece_index % 8)` into byte `piece_index / 8`. -/
def bitfieldSetStep (bf : List Nat) (p : Nat × PieceStatus) : List Nat :=
  if p.2 = PieceStatus.Finished then
    let byteIndex := p.1 / 8
    let byte := bf.getD byteIndex 0
    bf.set byteIndex (byte ||| (1 <<< (7 - p.1 % 8)))
  else bf

/-- Construction of a bitfield from a piece-status snapshot
(`Bitfield::from` in `peer_message/bitfield.rs`): `(len + 7) / 8` zero
bytes, then one pass over the map setting the bit of every `Finished`
entry. -/
def bitfieldFrom (m : StatusMap) : List Nat :=
  m.foldl bitfieldSetStep (List.replicate ((m.length + 7) / 8) 0)

/-- The immutable torrent data the coordinator consults (`Torrent` /
`Info` in `torrent_parser`): the file piece length and the concatenated
20-byte SHA-1 digests of the pieces. -/
structure TorrentInfo where
  pieceLength : Nat
  pieces : List Nat
deriving DecidableEq, Repr

/-- Coordinator state (`AtomicTorrentStatus` in `status.rs`), plus the log
of positional disk writes issued through `save_piece`. -/
structure CoordState where
  torrent : TorrentInfo
  piecesStatus : StatusMap
  currentPeers : Nat
  finishedPieces : Nat
  downloadingPieces : Nat
  freePieces : Nat
  disk : List (Nat × List Nat)
deriving DecidableEq, Repr

/-- Initial coordinator state (`AtomicTorrentStatus::new`): every piece
`Free`, counters `(free, downloading, finished) = (total, 0, 0)`, no peers.
The `HashMap` iteration order over the keys `0 .. total-1` is unspecified,
so it is an explicit argument `order`; `initState` below fixes the
ascending order used by concrete runs. -/
def initStateWithOrder (t : TorrentInfo) (order : List Nat) : CoordState :=
  { torrent := t
    piecesStatus := order.map (fun i => (i, PieceStatus.Free))
    currentPeers := 0
    finishedPieces := 0
    downloadingPieces := 0
    freePieces := order.length
    disk := [] }

/-- Initial coordinator state with the ascending key order. -/
def initState (t : TorrentInfo) (total : Nat) : CoordState :=
  initStateWithOrder t (List.range total)

/-- The find of the non-end-game branch of `select_piece`:
`filter(status == Free).find(bitfield.has_piece(index))` over the map's
iteration order.  The inner `has_piece` can panic, hence the outer
`Option`; the inner `Option` is the find's own result. -/
def findFreeWithPiece (bitfield : List Nat) : List Nat → Option (Option Nat)
  | [] => some none
  | i :: rest =>
    match hasPiece bitfield i with
    | none => none
    | some true => some (some i)
    | some false => findFreeWithPiece bitfield rest

/-- Piece selection (`AtomicTorrentStatus::select_piece`).  When no piece
is `Free` the end-game strategy picks a random `Downloading` index: the
random draw of `IteratorRandom::choose` is an explicit argument `choice`
(faithful instantiations return an element of the given candidate list, or
`none` exactly when it is empty).  On `Some(index)` the code marks the
index `Downloading`, increments `downloading_pieces` and decrements
`free_pieces` — in the end-game branch as well.  The outer `Option` is
`none` when `has_piece` panics on a too-short bitfield. -/
def selectPiece (choice : List Nat → Option Nat) (bitfield : List Nat)
    (st : CoordState) : Option (Option Nat × CoordState) :=
  let m := st.piecesStatus
  let found : Option (Option Nat) :=
    if countStatus m PieceStatus.Free = 0 then
      some (choice ((m.filter (fun p => p.2 = PieceStatus.Downloading)).map (·.1)))
    else
      findFreeWithPiece bitfield ((m.filter (fun p => p.2 = PieceStatus.Free)).map (·.1))
  match found with
  | none => none
  | some none => some (none, st)
  | some (some index) =>
    some (some index,
      { st with
          piecesStatus := mapInsert m index PieceStatus.Downloading
          downloadingPieces := addWrap st.downloadingPieces
          freePieces := subWrap st.freePieces })

/-- Committing a downloaded piece (`AtomicTorrentStatus::piece_downloaded`):
requires status `Downloading`, then persists via
`save_piece(name, piece, index * piece_length, ...)` (logged as a positional
write; `ioOk` is the success of the write syscall, and the `u32` offset
multiplication wraps), then sets the status to `Finished` and moves one
count from `downloading` to `finished`.  There is no hash check here. -/
def pieceDownloaded (ioOk : Bool) (st : CoordState) (index : Nat)
    (piece : List Nat) : Except AtomicTorrentStatusError Unit × CoordState :=
  match mapGet st.piecesStatus index with
  | none => (Except.error AtomicTorrentStatusError.InvalidPieceIndex, st)
  | some v =>
    if v ≠ PieceStatus.Downloading then
      (Except.error AtomicTorrentStatusError.PieceWasNotDownloading, st)
    else if ioOk then
      (Except.ok (),
        { st with
            disk := st.disk ++ [((index * st.torrent.pieceLength) % 2 ^ 32, piece)]
            piecesStatus := mapInsert st.piecesStatus index PieceStatus.Finished
            downloadingPieces := subWrap st.downloadingPieces
            finishedPieces := addWrap st.finishedPieces })
    else (Except.error AtomicTorrentStatusError.SavePieceError, st)

/-- Aborting a piece download (`AtomicTorrentStatus::piece_aborted`):
requires status `Downloading`, sets it back to `Free` and moves one count
from `downloading` to `free`. -/
def pieceAborted (st : CoordState) (index : Nat) :
    Except AtomicTorrentStatusError Unit × CoordState :=
  match mapGet st.piecesStatus index with
  | none => (Except.error AtomicTorrentStatusError.InvalidPieceIndex, st)
  | some v =>
    if v ≠ PieceStatus.Downloading then
      (Except.error AtomicTorrentStatusError.PieceWasNotDownloading, st)
    else
      (Except.ok (),
        { st with
            piecesStatus := mapInsert st.piecesStatus index PieceStatus.Free
            downloadingPieces := subWrap st.downloadingPieces
            freePieces := addWrap st.freePieces })

/-- Value of byte `pos` of the write log: the last write covering `pos`
wins, unwritten positions read 0 (model of the single download file). -/
def diskByte (writes : List (Nat × List Nat)) (pos : Nat) : Nat :=
  writes.foldl
    (fun acc w => if w.1 ≤ pos ∧ pos < w.1 + w.2.length then w.2.getD (pos - w.1) 0 else acc)
    0

/-- Reading `length` bytes at `offset` from the write log (model of
`retrieve_block`). -/
def diskRead (writes : List (Nat × List Nat)) (offset length : Nat) : List Nat :=
  (List.range length).map (fun k => diskByte writes (offset + k))

/-- Serving a block (`AtomicTorrentStatus::get_piece`): requires status
`Finished`, then reads from disk (state unchanged; `ioOk` is the success
of the read syscall). -/
def getPiece (ioOk : Bool) (st : CoordState) (index offset length : Nat) :
    Except AtomicTorrentStatusError (List Nat) × CoordState :=
  match mapGet st.piecesStatus index with
  | none => (Except.error AtomicTorrentStatusError.InvalidPieceIndex, st)
  | some v =>
    if v ≠ PieceStatus.Finished then
      (Except.error AtomicTorrentStatusError.PieceWasNotFinished, st)
    else if ioOk then (Except.ok (diskRead st.disk offset length), st)
    else (Except.error AtomicTorrentStatusError.RetrievingPieceError, st)

/-- Snapshot bitfield (`AtomicTorrentStatus::get_bitfield`): no state
change. -/
def getBitfield (st : CoordState) : List Nat × CoordState :=
  (bitfieldFrom st.piecesStatus, st)

/-- Registering a peer (`AtomicTorrentStatus::peer_connected`):
wrapping increment of the atomic counter. -/
def peerConnected (st : CoordState) : CoordState :=
  { st with currentPeers := addWrap st.currentPeers }

/-- Unregistering a peer (`AtomicTorrentStatus::peer_disconnected`):
error when no peer is connected, else wrapping decrement. -/
def peerDisconnected (st : CoordState) :
    Except AtomicTorrentStatusError Unit × CoordState :=
  if st.currentPeers = 0 then
    (Except.error AtomicTorrentStatusError.NoPeersConnected, st)
  else (Except.ok (), { st with currentPeers := subWrap st.currentPeers })

/-- One coordinator operation, with its environmental inputs (the random
draw of an end-game select, the success of a disk syscall) made explicit. -/
inductive Op where
  | select (choice : List Nat → Option Nat) (bitfield : List Nat)
  | downloaded (ioOk : Bool) (index : Nat) (piece : List Nat)
  | aborted (index : Nat)
  | readPiece (ioOk : Bool) (index offset length : Nat)
  | snapshot
  | connect
  | disconnect

/-- Applying one coordinator operation to the state, discarding the
returned value; `none` means the operation panicked. -/
def applyOp (st : CoordState) : Op → Option CoordState
  | Op.select choice bitfield => (selectPiece choice bitfield st).map (·.2)
  | Op.downloaded ioOk index piece => some (pieceDownloaded ioOk st index piece).2
  | Op.aborted index => some (pieceAborted st index).2
  | Op.readPiece ioOk index offset length => some (getPiece ioOk st index offset length).2
  | Op.snapshot => some (getBitfield st).2
  | Op.connect => some (peerConnected st)
  | Op.disconnect => some (peerDisconnected st).2

/-- Running a finite sequence of coordinator operations. -/
def runOps (st : CoordState) : List Op → Option CoordState
  | [] => some st
  | op :: rest =>
    match applyOp st op with
    | none => none
    | some st1 => runOps st1 rest

/-! SHA-1 (the `sha1` crate is external to the repository; the digest
function below is the standard FIPS 180 algorithm it implements, needed to
state the hash-validation claims). -/

/-- Truncation to 32 bits. -/
def mask32 (x : Nat) : Nat := x % 2 ^ 32

/-- Left rotation of a 32-bit word. -/
def rotl32 (n x : Nat) : Nat := mask32 ((x <<< n) ||| (x >>> (32 - n)))

/-- Big-endian bytes of a 32-bit word. -/
def be32 (x : Nat) : List Nat :=
  [x / 2 ^ 24 % 256, x / 2 ^ 16 % 256, x / 2 ^ 8 % 256, x % 256]

/-- Big-endian bytes of a 64-bit value. -/
def be64 (x : Nat) : List Nat :=
  (List.range 8).map (fun i => x / 2 ^ (8 * (7 - i)) % 256)

/-- SHA-1 message padding: append `0x80`, zero bytes up to 56 mod 64, then
the 64-bit big-endian bit length. -/
def sha1Pad (msg : List Nat) : List Nat :=
  let zeros := (120 - (msg.length + 1) % 64) % 64
  msg ++ 0x80 :: List.replicate zeros 0 ++ be64 (msg.length * 8)

/-- Split into 64-byte blocks (structural recursion on a fuel bounded by
the length: each step consumes at least one byte). -/
def chunk64Go (fuel : Nat) (l : List Nat) : List (List Nat) :=
  match fuel with
  | 0 => []
  | fuel + 1 => if l = [] then [] else l.take 64 :: chunk64Go fuel (l.drop 64)

/-- Split into 64-byte blocks. -/
def chunk64 (l : List Nat) : List (List Nat) := chunk64Go l.length l

/-- Big-endian 32-bit word from four bytes. -/
def beWord (bytes : List Nat) : Nat :=
  bytes.foldl (fun acc b => acc * 256 + b) 0

/-- The 80-entry SHA-1 message schedule from a 16-word block. -/
def sha1Schedule (w16 : List Nat) : List Nat :=
  (List.range 80).foldl
    (fun acc t =>
      if t < 16 then acc ++ [w16.getD t 0]
      else
        acc ++ [rotl32 1 (((acc.getD (t - 3) 0) ^^^ (acc.getD (t - 8) 0)) ^^^
          ((acc.getD (t - 14) 0) ^^^ (acc.getD (t - 16) 0)))])
    []

/-- SHA-1 round function. -/
def sha1F (t b c d : Nat) : Nat :=
  if t < 20 then (b &&& c) ||| ((b ^^^ (2 ^ 32 - 1)) &&& d)
  else if t < 40 then (b ^^^ c) ^^^ d
  else if t < 60 then ((b &&& c) ||| (b &&& d)) ||| (c &&& d)
  else (b ^^^ c) ^^^ d

/-- SHA-1 round constants. -/
def sha1K (t : Nat) : Nat :=
  if t < 20 then 0x5A827999
  else if t < 40 then 0x6ED9EBA1
  else if t < 60 then 0x8F1BBCDC
  else 0xCA62C1D6

/-- SHA-1 compression of one 64-byte block into the running state. -/
def sha1Compress (h : Nat × Nat × Nat × Nat × Nat) (block : List Nat) :
    Nat × Nat × Nat × Nat × Nat :=
  let w16 := (List.range 16).map (fun j => beWord ((block.drop (4 * j)).take 4))
  let ws := sha1Schedule w16
  let (a, b, c, d, e) :=
    ws.enum.foldl
      (fun s tw =>
        let (a, b, c, d, e) := s
        let temp := mask32 (rotl32 5 a + sha1F tw.1 b c d + e + sha1K tw.1 + tw.2)
        (temp, a, rotl32 30 b, c, d))
      h
  (mask32 (h.1 + a), mask32 (h.2.1 + b), mask32 (h.2.2.1 + c),
    mask32 (h.2.2.2.1 + d), mask32 (h.2.2.2.2 + e))

/-- SHA-1 digest of a byte sequence, as its 20 bytes. -/
def sha1Bytes (msg : List Nat) : List Nat :=
  let h :=
    (chunk64 (sha1Pad msg)).foldl sha1Compress
      (0x67452301, 0xEFCDAB89, 0x98BADCFE, 0x10325476, 0xC3D2E1F0)
  be32 h.1 ++ be32 h.2.1 ++ be32 h.2.2.1 ++ be32 h.2.2.2.1 ++ be32 h.2.2.2.2

/-! Wire codec (`src/peer/message.rs` and `src/peer/message/handshake.rs`). -/

/-- Protocol message ids (`MessageId`), with the enum discriminants of the
source. -/
inductive MessageId where
  | Choke
  | Unchoke
  | Interested
  | NotInterested
  | Have
  | Bitfield
  | Request
  | Piece
  | Cancel
  | Port
deriving DecidableEq, Repr

/-- The id byte of a message id (the `as u8` enum cast). -/
def MessageId.toByte : MessageId → Nat
  | .Choke => 0
  | .Unchoke => 1
  | .Interested => 2
  | .NotInterested => 3
  | .Have => 4
  | .Bitfield => 5
  | .Request => 6
  | .Piece => 7
  | .Cancel => 8
  | .Port => 9

/-- A protocol message (`Message`): id and payload. -/
structure Message where
  id : MessageId
  payload : List Nat
deriving DecidableEq, Repr

/-- Message decoding error (`FromMessageError`). -/
inductive FromMessageError where
  | InvalidMessage
deriving DecidableEq, Repr

/-- Message decoding (`Message::from_bytes`): maps the id byte back to a
`MessageId` (unknown bytes are `InvalidMessage`) and copies the payload. -/
def Message.fromBytes (msgType : Nat) (payload : List Nat) :
    Except FromMessageError Message :=
  match msgType with
  | 0 => Except.ok ⟨MessageId.Choke, payload⟩
  | 1 => Except.ok ⟨MessageId.Unchoke, payload⟩
  | 2 => Except.ok ⟨MessageId.Interested, payload⟩
  | 3 => Except.ok ⟨MessageId.NotInterested, payload⟩
  | 4 => Except.ok ⟨MessageId.Have, payload⟩
  | 5 => Except.ok ⟨MessageId.Bitfield, payload⟩
  | 6 => Except.ok ⟨MessageId.Request, payload⟩
  | 7 => Except.ok ⟨MessageId.Piece, payload⟩
  | 8 => Except.ok ⟨MessageId.Cancel, payload⟩
  | 9 => Except.ok ⟨MessageId.Port, payload⟩
  | _ => Except.error FromMessageError.InvalidMessage

/-- Message encoding (`Message::to_bytes`): 4-byte big-endian length
prefix `payload.len() + 1` (cast to `u32`), the id byte, then the payload. -/
def Message.toBytes (m : Message) : List Nat :=
  be32 (mask32 (m.payload.length + 1)) ++ m.id.toByte :: m.payload

/-- UTF-8 bytes of the protocol string "BitTorrent protocol". -/
def protocolBytes : List Nat :=
  [66, 105, 116, 84, 111, 114, 114, 101, 110, 116, 32,
   112, 114, 111, 116, 111, 99, 111, 108]

/-- The fixed 68-byte handshake (`Handshake`), with the protocol string
kept as its bytes. -/
structure Handshake where
  pstrlen : Nat
  pstr : List Nat
  reserved : List Nat
  infoHash : List Nat
  peerId : List Nat
deriving DecidableEq, Repr

/-- Handshake construction (`Handshake::new`). -/
def Handshake.new (infoHash peerId : List Nat) : Handshake :=
  { pstrlen := 19
    pstr := protocolBytes
    reserved := List.replicate 8 0
    infoHash := infoHash
    peerId := peerId }

/-- Handshake encoding (`Handshake::to_bytes`). -/
def Handshake.toBytes (h : Handshake) : List Nat :=
  h.pstrlen :: (h.pstr ++ h.reserved ++ h.infoHash ++ h.peerId)

/-- Handshake decoding error. -/
inductive HandshakeError where
  | BadHandshake
deriving DecidableEq, Repr

/-- Modelled from the spec: `Handshake::from_bytes` is called from
`peer_session.rs` but its definition is not under `src/`; spec section 4.1
says the decoder validates the length, `pstrlen = 19` and the protocol
string, and returns the 20-byte `info_hash` and `peer_id`, failing with
`BadHandshake` otherwise. -/
def handshakeFromBytes (b : List Nat) :
    Except HandshakeError (List Nat × List Nat) :=
  if b.length = 68 ∧ b.getD 0 0 = 19 ∧ (b.drop 1).take 19 = protocolBytes then
    Except.ok ((b.drop 28).take 20, b.drop 48)
  else Except.error HandshakeError.BadHandshake

/-! Peer session fragments (`src/peer/peer_session.rs`). -/

/-- Peer session error enum (`PeerSessionError`), restricted to the
variants reachable from the embedded fragments. -/
inductive PeerSessionError where
  | HandshakeError
  | ErrorReadingMessage
  | ErrorAbortingPiece (e : AtomicTorrentStatusError)
  | ErrorSelectingPiece (e : AtomicTorrentStatusError)
  | ErrorNotifyingPieceDownloaded (e : AtomicTorrentStatusError)
  | PieceHashDoesNotMatch
  | NoPiecesLeftToDownloadInThisPeer
deriving DecidableEq, Repr

/-- The per-window request counts chosen by `download_with_pipeline`:
while blocks remain, the window size is the pipelining width `W` when the
remaining count is divisible by `W`, and otherwise the whole remainder
(structural recursion on a fuel bounded by the block count: each window
downloads at least one block). -/
def pipelineWindowsGo (fuel w rem : Nat) : List Nat :=
  match fuel with
  | 0 => []
  | fuel + 1 =>
    if rem = 0 then []
    else
      let blocksToDownload := if rem % w = 0 then w else rem
      blocksToDownload :: pipelineWindowsGo fuel w (rem - blocksToDownload)

/-- Sequence of window widths issued for a piece of `entire` whole blocks
at pipelining width `w`. -/
def pipelineWindows (w entire : Nat) : List Nat :=
  pipelineWindowsGo entire w entire

/-- Lower-case hex digit. -/
def hexDigit (n : Nat) : Char :=
  Char.ofNat (if n < 10 then 48 + n else 87 + n)

/-- The characters of the hex rendering of a byte sequence
(`convert_to_hex_string`, two lower-case digits per byte). -/
def hexChars (bytes : List Nat) : List Char :=
  bytes.foldr (fun b acc => hexDigit (b / 16 % 16) :: hexDigit (b % 16) :: acc) []

/-- Rust slice `&v[a..b]`: panics (hence `none`) unless `a ≤ b ≤ v.len()`. -/
def rustSlice (v : List Nat) (a b : Nat) : Option (List Nat) :=
  if a ≤ b ∧ b ≤ v.length then some ((v.drop a).take (b - a)) else none

/-- Rust slice `&v[a..]`: panics (hence `none`) unless `a ≤ v.len()`. -/
def rustSliceFrom (v : List Nat) (a : Nat) : Option (List Nat) :=
  if a ≤ v.length then some (v.drop a) else none

/-- Piece validation and commit (`PeerSession::validate_piece`): slices
the 20-byte digest `pieces[index*20 .. index*20+20]` out of the metainfo
(a panic if out of range), hex-renders it and the SHA-1 of the received
piece, and on equal hex strings calls `piece_downloaded`; on differing
strings returns `PieceHashDoesNotMatch` without touching the coordinator. -/
def validatePiece (ioOk : Bool) (st : CoordState) (piece : List Nat)
    (pieceIndex : Nat) :
    Option (Except PeerSessionError Unit × CoordState) :=
  let start := pieceIndex * 20
  match rustSlice st.torrent.pieces start (start + 20) with
  | none => none
  | some realHash =>
    if hexChars realHash = hexChars (sha1Bytes piece) then
      match pieceDownloaded ioOk st pieceIndex piece with
      | (Except.ok _, st1) => some (Except.ok (), st1)
      | (Except.error e, st1) =>
        some (Except.error (PeerSessionError.ErrorNotifyingPieceDownloaded e), st1)
    else some (Except.error PeerSessionError.PieceHashDoesNotMatch, st)

/-- Environmental outcome of one `download_piece` attempt: either every
requested block arrived and the assembled bytes are `piece` (with `ioOk`
the success of the commit's disk write), or the transfer failed with a
session error before validation. -/
inductive NetOutcome where
  | ok (piece : List Nat) (ioOk : Bool)
  | ioErr (e : PeerSessionError)

/-- The download loop (`PeerSession::request_pieces`), driven by a finite
trace of per-piece download outcomes: select a piece; on `None` return
`NoPiecesLeftToDownloadInThisPeer`; otherwise run `download_piece` (its
network phase summarized by the trace entry, its validation phase by
`validatePiece`); on success loop, on any error call `piece_aborted` and
return the error (the abort's own failure takes precedence as
`ErrorAbortingPiece`).  The result pairs the final coordinator state with
`some error` when the loop returned and `none` when the trace ran out with
the loop still live; the outer `Option` is `none` on a panic. -/
def requestPieces (choice : List Nat → Option Nat) (bitfield : List Nat) :
    List NetOutcome → CoordState → Option (CoordState × Option PeerSessionError)
  | outcomes, st =>
    match selectPiece choice bitfield st with
    | none => none
    | some (none, st1) =>
      some (st1, some PeerSessionError.NoPiecesLeftToDownloadInThisPeer)
    | some (some index, st1) =>
      match outcomes with
      | [] => some (st1, none)
      | o :: rest =>
        let dl : Option (Except PeerSessionError Unit × CoordState) :=
          match o with
          | NetOutcome.ioErr e => some (Except.error e, st1)
          | NetOutcome.ok piece ioOk => validatePiece ioOk st1 piece index
        match dl with
        | none => none
        | some (Except.ok _, st2) => requestPieces choice bitfield rest st2
        | some (Except.error e, st2) =>
          match pieceAborted st2 index with
          | (Except.ok _, st3) => some (st3, some e)
          | (Except.error ae, st3) =>
            some (st3, some (PeerSessionError.ErrorAbortingPiece ae))

/-- Handling of a received Piece message (`PeerSession::handle_piece`):
appends `payload[8..]` to the piece buffer; the slice panics (hence
`none`) when the payload is shorter than 8 bytes. -/
def handlePiece (piece payload : List Nat) : Option (List Nat) :=
  (rustSliceFrom payload 8).map (fun block => piece ++ block)

/-- The parsing prefix of `PeerSession::handle_request`: copies
`payload[0..4]`, `payload[4..8]`, `payload[8..12]` and decodes them as
big-endian `u32` index, begin and length; a slice panics (hence `none`)
when the payload is shorter than 12 bytes. -/
def handleRequestParse (payload : List Nat) : Option (Nat × Nat × Nat) :=
  match rustSlice payload 0 4, rustSlice payload 4 8, rustSlice payload 8 12 with
  | some i, some b, some l => some (beWord i, beWord b, beWord l)
  | _, _, _ => none

/-- Decidable equality of `Except` results (needed so that concrete runs
can be settled by `decide`). -/
instance {α β : Type} [DecidableEq α] [DecidableEq β] :
    DecidableEq (Except α β) := fun x y =>
  match x, y with
  | Except.ok a, Except.ok b =>
    if h : a = b then isTrue (by rw [h])
    else isFalse (by intro hh; cases hh; exact h rfl)
  | Except.error a, Except.error b =>
    if h : a = b then isTrue (by rw [h])
    else isFalse (by intro hh; cases hh; exact h rfl)
  | Except.ok _, Except.error _ => isFalse (by intro hh; cases hh)
  | Except.error _, Except.ok _ => isFalse (by intro hh; cases hh)

/-! Concrete fixtures used by counterexamples and witnesses. -/

/-- A one-piece torrent whose recorded digest is twenty zero bytes (which
is not the SHA-1 of any input considered here). -/
def zeroHashTorrent : TorrentInfo := ⟨1, List.replicate 20 0⟩

/-- A one-piece torrent whose recorded digest is the SHA-1 of the empty
byte sequence. -/
def emptyPieceTorrent : TorrentInfo := ⟨1, sha1Bytes []⟩

/-- The deterministic instantiation of the end-game random draw used in
concrete runs: the first candidate (on a singleton candidate list this is
the only faithful value). -/
def headChoice (l : List Nat) : Option Nat := l.head?

/-- A coordinator state of the one-piece zero-digest torrent whose only
piece is `Downloading` (the state reached from the initial state by one
successful `select_piece`). -/
def downloadingState : CoordState :=
  { torrent := zeroHashTorrent
    piecesStatus := [(0, PieceStatus.Downloading)]
    currentPeers := 0
    finishedPieces := 0
    downloadingPieces := 1
    freePieces := 0
    disk := [] }

/-- A coordinator state of the one-piece zero-digest torrent whose only
piece is `Finished`. -/
def finishedState : CoordState :=
  { torrent := zeroHashTorrent
    piecesStatus := [(0, PieceStatus.Finished)]
    currentPeers := 0
    finishedPieces := 1
    downloadingPieces := 0
    freePieces := 0
    disk := [(0, [7])] }

/-! Helper lemmas about the association-list map. -/

theorem mapGet_cons (p : Nat × PieceStatus) (rest : StatusMap) (i : Nat) :
    mapGet (p :: rest) i = if p.1 = i then some p.2 else mapGet rest i := by
  by_cases h : p.1 = i <;> simp [mapGet, List.find?_cons, h]

theorem mapInsert_cons (p : Nat × PieceStatus) (rest : StatusMap) (i : Nat)
    (v : PieceStatus) :
    mapInsert (p :: rest) i v =
      (if p.1 = i then (i, v) else p) :: mapInsert rest i v := by
  simp [mapInsert]

theorem countStatus_cons (p : Nat × PieceStatus) (rest : StatusMap)
    (s : PieceStatus) :
    countStatus (p :: rest) s =
      (if p.2 = s then 1 else 0) + countStatus rest s := by
  by_cases h : p.2 = s <;> simp [countStatus, List.filter_cons, h, Nat.add_comm]

theorem mapGet_mem {m : StatusMap} {i : Nat} {s : PieceStatus}
    (h : mapGet m i = some s) : (i, s) ∈ m := by
  induction m with
  | nil => simp [mapGet] at h
  | cons p rest ih =>
    rw [mapGet_cons] at h
    by_cases hp : p.1 = i
    · simp only [hp, if_true] at h
      have hps : p = (i, s) := by
        cases p
        simp_all
      rw [hps]
      exact List.mem_cons_self _ _
    · simp only [hp, if_false] at h
      exact List.mem_cons_of_mem p (ih h)

theorem mem_mapGet {m : StatusMap} (hnd : (m.map Prod.fst).Nodup)
    {i : Nat} {s : PieceStatus} (h : (i, s) ∈ m) : mapGet m i = some s := by
  induction m with
  | nil => simp at h
  | cons p rest ih =>
    simp only [List.map_cons, List.nodup_cons] at hnd
    rw [mapGet_cons]
    rcases List.mem_cons.mp h with heq | hmem
    · simp [← heq]
    · have hne : p.1 ≠ i := by
        intro hcontra
        exact hnd.1 (hcontra ▸ List.mem_map_of_mem Prod.fst hmem)
      simp [hne, ih hnd.2 hmem]

theorem mapInsert_length (m : StatusMap) (i : Nat) (v : PieceStatus) :
    (mapInsert m i v).length = m.length := by
  simp [mapInsert]

theorem mapInsert_keys (m : StatusMap) (i : Nat) (v : PieceStatus) :
    (mapInsert m i v).map Prod.fst = m.map Prod.fst := by
  induction m with
  | nil => rfl
  | cons p rest ih =>
    rw [mapInsert_cons]
    by_cases hp : p.1 = i <;> simp [hp, ih]

theorem mapInsert_not_mem {m : StatusMap} {i : Nat}
    (h : i ∉ m.map Prod.fst) (v : PieceStatus) : mapInsert m i v = m := by
  induction m with
  | nil => rfl
  | cons p rest ih =>
    simp only [List.map_cons, List.mem_cons] at h
    push_neg at h
    have h1 : p.1 ≠ i := fun hh => h.1 hh.symm
    rw [mapInsert_cons]
    simp [h1, ih h.2]

theorem mapGet_mapInsert_self {m : StatusMap} {i : Nat} {s : PieceStatus}
    (h : mapGet m i = some s) (v : PieceStatus) :
    mapGet (mapInsert m i v) i = some v := by
  induction m with
  | nil => simp [mapGet] at h
  | cons p rest ih =>
    rw [mapGet_cons] at h
    rw [mapInsert_cons]
    by_cases hp : p.1 = i
    · simp [hp, mapGet_cons]
    · simp only [hp, if_false] at h ⊢
      rw [mapGet_cons]
      simp [hp, ih h]

theorem countStatus_mapInsert {m : StatusMap} (hnd : (m.map Prod.fst).Nodup)
    {i : Nat} {s : PieceStatus} (h : mapGet m i = some s) (v t : PieceStatus) :
    countStatus (mapInsert m i v) t + (if s = t then 1 else 0) =
      countStatus m t + (if v = t then 1 else 0) := by
  induction m with
  | nil => simp [mapGet] at h
  | cons p rest ih =>
    simp only [List.map_cons, List.nodup_cons] at hnd
    rw [mapGet_cons] at h
    rw [mapInsert_cons]
    by_cases hp : p.1 = i
    · simp only [hp, if_true] at h ⊢
      have hrest : i ∉ rest.map Prod.fst := hp ▸ hnd.1
      rw [mapInsert_not_mem hrest v]
      rw [countStatus_cons, countStatus_cons]
      have hs : p.2 = s := by injection h
      simp only [hs]
      by_cases hst : s = t <;> by_cases hvt : v = t <;> simp [hst, hvt] <;> omega
    · simp only [hp, if_false] at h ⊢
      rw [countStatus_cons, countStatus_cons]
      have := ih hnd.2 h
      omega

theorem countStatus_partition (m : StatusMap) :
    countStatus m PieceStatus.Free + countStatus m PieceStatus.Downloading +
      countStatus m PieceStatus.Finished = m.length := by
  induction m with
  | nil => rfl
  | cons p rest ih =>
    rw [countStatus_cons, countStatus_cons, countStatus_cons]
    cases p.2 <;> simp <;> omega

theorem countStatus_pos {m : StatusMap} {i : Nat} {s : PieceStatus}
    (h : mapGet m i = some s) : 0 < countStatus m s := by
  induction m with
  | nil => simp [mapGet] at h
  | cons p rest ih =>
    rw [mapGet_cons] at h
    rw [countStatus_cons]
    by_cases hp : p.1 = i
    · simp only [hp, if_true] at h
      have hs : p.2 = s := by injection h
      simp [hs]
    · simp only [hp, if_false] at h
      have := ih h
      omega

theorem countStatus_le_length (m : StatusMap) (s : PieceStatus) :
    countStatus m s ≤ m.length :=
  List.length_filter_le _ m

theorem subWrap_eq {n : Nat} (hpos : 0 < n) (hlt : n < USIZE) :
    subWrap n = n - 1 := by
  unfold subWrap USIZE at *
  omega

theorem addWrap_eq {n : Nat} (hlt : n + 1 < USIZE) : addWrap n = n + 1 := by
  unfold addWrap USIZE at *
  omega

theorem mem_freeKeys {m : StatusMap} {i : Nat} {s : PieceStatus} :
    i ∈ (m.filter (fun p => p.2 = s)).map Prod.fst ↔ (i, s) ∈ m := by
  constructor
  · intro h
    rcases List.mem_map.mp h with ⟨p, hp, hfst⟩
    rcases List.mem_filter.mp hp with ⟨hmem, hdec⟩
    have hs : p.2 = s := by simpa using hdec
    have : p = (i, s) := by
      cases p
      simp_all
    exact this ▸ hmem
  · intro h
    exact List.mem_map.mpr ⟨(i, s), List.mem_filter.mpr ⟨h, by simp⟩, rfl⟩

theorem findFreeWithPiece_mem {bf : List Nat} {l : List Nat} {i : Nat}
    (h : findFreeWithPiece bf l = some (some i)) :
    i ∈ l ∧ hasPiece bf i = some true := by
  induction l with
  | nil => simp [findFreeWithPiece] at h
  | cons j rest ih =>
    unfold findFreeWithPiece at h
    cases hhp : hasPiece bf j with
    | none => simp [hhp] at h
    | some b =>
      cases b with
      | true =>
        simp [hhp] at h
        exact ⟨by simp [h], h ▸ hhp⟩
      | false =>
        simp only [hhp] at h
        have := ih h
        exact ⟨List.mem_cons_of_mem j this.1, this.2⟩

theorem findFreeWithPiece_total {bf : List Nat} {l : List Nat}
    (h : ∀ i ∈ l, i / 8 < bf.length) : findFreeWithPiece bf l ≠ none := by
  induction l with
  | nil => simp [findFreeWithPiece]
  | cons j rest ih =>
    have hj : j / 8 < bf.length := h j (by simp)
    obtain ⟨byte, hbyte⟩ : ∃ a, bf.get? (j / 8) = some a :=
      ⟨_, List.get?_eq_get hj⟩
    have hhp : hasPiece bf j = some (((byte >>> (7 - j % 8)) &&& 1) != 0) := by
      unfold hasPiece
      rw [hbyte]
    unfold findFreeWithPiece
    rw [hhp]
    cases hval : (((byte >>> (7 - j % 8)) &&& 1) != 0)
    · simpa using ih (fun i hi => h i (List.mem_cons_of_mem j hi))
    · simp

/-! Theorems. -/

/-- C6 (code bug): at pipelining width 2 and a piece of 3 whole blocks the
code issues a single window of all 3 requests — `download_with_pipeline`
requests the pipelining width only when the remaining block count is
divisible by it, and otherwise requests the whole remainder — whereas the
spec (and the function's own doc comment) require windows of width 2 then
1.  At width 5 and 13 blocks the schedule is likewise one window of 13. -/
theorem pipelineWindows_requests_whole_remainder :
    pipelineWindows 2 3 = [3] ∧ pipelineWindows 2 3 ≠ [2, 1] ∧
    pipelineWindows 5 13 = [13] ∧ pipelineWindows 5 10 = [5, 5] := by
  decide

/-- C10 (confirmed): the Piece handler slices `payload[8..]` and panics on
any payload shorter than 8 bytes, and the Request handler slices
`payload[8..12]` and panics on any payload shorter than 12 bytes; neither
returns a `PeerSessionError` for those inputs.  On payloads at least that
long both handlers proceed. -/
theorem handlers_panic_on_short_payloads :
    (∀ piece payload : List Nat, payload.length < 8 →
      handlePiece piece payload = none) ∧
    (∀ payload : List Nat, payload.length < 12 →
      handleRequestParse payload = none) ∧
    (∀ piece payload : List Nat, 8 ≤ payload.length →
      handlePiece piece payload = some (piece ++ payload.drop 8)) ∧
    (∀ payload : List Nat, 12 ≤ payload.length →
      handleRequestParse payload ≠ none) := by
  refine ⟨?_, ?_, ?_, ?_⟩
  · intro piece payload h
    simp [handlePiece, rustSliceFrom]
    omega
  · intro payload h
    simp only [handleRequestParse, rustSlice]
    have hn12 : ¬ 12 ≤ payload.length := by omega
    by_cases h4 : 4 ≤ payload.length <;> by_cases h8 : 8 ≤ payload.length <;>
      simp [h4, h8, hn12]
  · intro piece payload h
    simp [handlePiece, rustSliceFrom, h]
  · intro payload h
    have h4 : 0 ≤ 4 ∧ 4 ≤ payload.length := by omega
    have h8 : 4 ≤ 8 ∧ 8 ≤ payload.length := by omega
    have h12 : 8 ≤ 12 ∧ 12 ≤ payload.length := by omega
    simp [handleRequestParse, rustSlice, h4, h8, h12]

/-- Witness for the C10 theorem at concrete payloads. -/
theorem handlers_panic_on_short_payloads_witness :
    handlePiece [] [1, 2, 3] = none ∧ handleRequestParse [1, 2, 3] = none :=
  ⟨handlers_panic_on_short_payloads.1 [] [1, 2, 3] (by decide),
   handlers_panic_on_short_payloads.2.1 [1, 2, 3] (by decide)⟩

/-- C3 (counterexample): committing a piece whose status is `Finished` is
an error, not a success no-op — `piece_downloaded` on the finished
one-piece state returns `PieceWasNotDownloading`, never `Ok`. -/
theorem pieceDownloaded_on_finished_errors :
    mapGet finishedState.piecesStatus 0 = some PieceStatus.Finished ∧
    pieceDownloaded true finishedState 0 [] =
      (Except.error AtomicTorrentStatusError.PieceWasNotDownloading, finishedState) ∧
    (pieceDownloaded true finishedState 0 []).1 ≠ Except.ok () := by
  decide

/-- C3 (amended): for every piece whose status is `Finished`, a second
commit returns `Err(PieceWasNotDownloading)` and leaves the whole state —
disk write log included — unchanged. -/
theorem pieceDownloaded_on_finished_is_error_noop (ioOk : Bool)
    (st : CoordState) (i : Nat) (piece : List Nat)
    (h : mapGet st.piecesStatus i = some PieceStatus.Finished) :
    pieceDownloaded ioOk st i piece =
      (Except.error AtomicTorrentStatusError.PieceWasNotDownloading, st) := by
  simp [pieceDownloaded, h]

/-- Witness for the amended C3 theorem on the finished one-piece state. -/
theorem pieceDownloaded_on_finished_is_error_noop_witness :
    pieceDownloaded false finishedState 0 [9] =
      (Except.error AtomicTorrentStatusError.PieceWasNotDownloading, finishedState) :=
  pieceDownloaded_on_finished_is_error_noop false finishedState 0 [9] (by decide)

/-- C4 (amended): `select_piece` returns without panic whenever every
`Free` index has its bitfield byte in range (in particular for any
bitfield of at least `ceil(total_pieces / 8)` bytes), and an out-of-range
piece index makes `piece_downloaded`, `piece_aborted` and `get_piece`
return `Err(InvalidPieceIndex)` without a panic and without a state
change; but `select_piece` itself can panic on a short bitfield. -/
theorem coordinator_panic_boundary :
    (∀ (choice : List Nat → Option Nat) (bf : List Nat) (st : CoordState),
      (∀ i ∈ (st.piecesStatus.filter (fun p => p.2 = PieceStatus.Free)).map Prod.fst,
        i / 8 < bf.length) →
      selectPiece choice bf st ≠ none) ∧
    (∀ (ioOk : Bool) (st : CoordState) (i : Nat) (piece : List Nat),
      mapGet st.piecesStatus i = none →
      pieceDownloaded ioOk st i piece =
        (Except.error AtomicTorrentStatusError.InvalidPieceIndex, st)) ∧
    (∀ (st : CoordState) (i : Nat),
      mapGet st.piecesStatus i = none →
      pieceAborted st i =
        (Except.error AtomicTorrentStatusError.InvalidPieceIndex, st)) ∧
    (∀ (ioOk : Bool) (st : CoordState) (i off len : Nat),
      mapGet st.piecesStatus i = none →
      getPiece ioOk st i off len =
        (Except.error AtomicTorrentStatusError.InvalidPieceIndex, st)) := by
  refine ⟨?_, ?_, ?_, ?_⟩
  · intro choice bf st hkeys
    unfold selectPiece
    by_cases hfree : countStatus st.piecesStatus PieceStatus.Free = 0
    · cases hc : choice
          ((st.piecesStatus.filter (fun p => p.2 = PieceStatus.Downloading)).map (·.1)) with
      | none => simp [hfree, hc]
      | some j => simp [hfree, hc]
    · have hne := findFreeWithPiece_total hkeys
      simp only [hfree, if_false]
      cases hf : findFreeWithPiece bf
          ((st.piecesStatus.filter (fun p => p.2 = PieceStatus.Free)).map Prod.fst) with
      | none => exact absurd hf hne
      | some o => cases o <;> simp [hf]
  · intro ioOk st i piece h
    simp [pieceDownloaded, h]
  · intro st i h
    simp [pieceAborted, h]
  · intro ioOk st i off len h
    simp [getPiece, h]

/-- Witness for the amended C4 theorem: on the fresh one-piece state a
one-byte bitfield is long enough for `select_piece`, and index 5 is
rejected with `InvalidPieceIndex` by `piece_downloaded`, `piece_aborted`
and `get_piece`. -/
theorem coordinator_panic_boundary_witness :
    selectPiece headChoice [255] (initState zeroHashTorrent 1) ≠ none ∧
    pieceDownloaded true (initState zeroHashTorrent 1) 5 [] =
      (Except.error AtomicTorrentStatusError.InvalidPieceIndex,
        initState zeroHashTorrent 1) ∧
    pieceAborted (initState zeroHashTorrent 1) 5 =
      (Except.error AtomicTorrentStatusError.InvalidPieceIndex,
        initState zeroHashTorrent 1) ∧
    getPiece true (initState zeroHashTorrent 1) 5 0 1 =
      (Except.error AtomicTorrentStatusError.InvalidPieceIndex,
        initState zeroHashTorrent 1) :=
  ⟨coordinator_panic_boundary.1 headChoice [255] (initState zeroHashTorrent 1)
      (by decide),
   coordinator_panic_boundary.2.1 true (initState zeroHashTorrent 1) 5 []
      (by decide),
   coordinator_panic_boundary.2.2.1 (initState zeroHashTorrent 1) 5 (by decide),
   coordinator_panic_boundary.2.2.2 true (initState zeroHashTorrent 1) 5 0 1
      (by decide)⟩

/-- C4 (counterexample): `select_piece` panics on a remote bitfield
shorter than `ceil(total_pieces / 8)` bytes — on the fresh one-piece state
with an empty bitfield, `has_piece` indexes past the end. -/
theorem selectPiece_panics_on_short_bitfield :
    selectPiece headChoice [] (initState zeroHashTorrent 1) = none := by
  decide

/-- A two-piece torrent fixture (forty digest bytes). -/
def twoPieceTorrent : TorrentInfo := ⟨1, List.replicate 40 0⟩

/-- C5 (counterexample): `select_piece` follows the hash map's iteration
order, not the index order.  On the fresh two-piece state whose map
iterates key 1 before key 0 — iteration order of the Rust `HashMap` is
unspecified, so this order is a legitimate run — both pieces are `Free`
and present in the remote bitfield `0xC0`, yet the selected piece is 1,
not the smallest eligible index 0. -/
theorem selectPiece_not_smallest_free :
    mapGet (initStateWithOrder twoPieceTorrent [1, 0]).piecesStatus 0 =
      some PieceStatus.Free ∧
    hasPiece [192] 0 = some true ∧
    (selectPiece headChoice [192]
        (initStateWithOrder twoPieceTorrent [1, 0])).map (·.1) =
      some (some 1) := by
  decide

/-- C5 (amended): a `select_piece` call made while some piece is `Free`
that returns `Some(i)` picked an index that is `Free` and present in the
remote bitfield (the first such index in the map's unspecified iteration
order, not necessarily the smallest), and marks it `Downloading`; an
index absent from the remote bitfield can only be returned by an end-game
call. -/
theorem selectPiece_some_is_free_and_present
    (choice : List Nat → Option Nat) (bf : List Nat) (st : CoordState)
    (i : Nat) (st' : CoordState)
    (hnd : (st.piecesStatus.map Prod.fst).Nodup)
    (hfree : countStatus st.piecesStatus PieceStatus.Free ≠ 0)
    (hsel : selectPiece choice bf st = some (some i, st')) :
    mapGet st.piecesStatus i = some PieceStatus.Free ∧
    hasPiece bf i = some true ∧
    mapGet st'.piecesStatus i = some PieceStatus.Downloading := by
  unfold selectPiece at hsel
  simp only [hfree, if_false] at hsel
  cases hf : findFreeWithPiece bf
      ((st.piecesStatus.filter (fun p => p.2 = PieceStatus.Free)).map (·.1)) with
  | none => rw [hf] at hsel; exact absurd hsel (by simp)
  | some o =>
    rw [hf] at hsel
    cases o with
    | none => simp at hsel
    | some j =>
      simp only [Option.some.injEq, Prod.mk.injEq] at hsel
      obtain ⟨hji, hst⟩ := hsel
      subst hji
      have hmem := findFreeWithPiece_mem hf
      have hfreeMem : (j, PieceStatus.Free) ∈ st.piecesStatus :=
        mem_freeKeys.mp hmem.1
      have hget : mapGet st.piecesStatus j = some PieceStatus.Free :=
        mem_mapGet hnd hfreeMem
      refine ⟨hget, hmem.2, ?_⟩
      rw [← hst]
      exact mapGet_mapInsert_self hget PieceStatus.Downloading

/-- Witness for the amended C5 theorem: the fresh one-piece state with a
full bitfield selects piece 0 and marks it `Downloading`. -/
theorem selectPiece_some_is_free_and_present_witness :
    mapGet (initState zeroHashTorrent 1).piecesStatus 0 =
      some PieceStatus.Free ∧
    hasPiece [255] 0 = some true ∧
    mapGet downloadingState.piecesStatus 0 = some PieceStatus.Downloading :=
  selectPiece_some_is_free_and_present headChoice [255]
    (initState zeroHashTorrent 1) 0 downloadingState (by decide) (by decide)
    (by decide)

/-- The state of the one-piece empty-file torrent after `select_piece`
marked its piece `Downloading`. -/
def emptyDownloadingState : CoordState :=
  { torrent := emptyPieceTorrent
    piecesStatus := [(0, PieceStatus.Downloading)]
    currentPeers := 0
    finishedPieces := 0
    downloadingPieces := 1
    freePieces := 0
    disk := [] }

/-- The state of the one-piece empty-file torrent after its piece was
committed. -/
def emptyFinishedState : CoordState :=
  { torrent := emptyPieceTorrent
    piecesStatus := [(0, PieceStatus.Finished)]
    currentPeers := 0
    finishedPieces := 1
    downloadingPieces := 0
    freePieces := 0
    disk := [(0, [])] }

/-- C1 (counterexample): `piece_downloaded` performs no SHA-1 check.  On
the one-piece state whose piece is `Downloading`, the bytes `[1, 2, 3]`
hash to something other than the recorded digest `pieces[0..20]`, yet
`piece_downloaded(0, [1, 2, 3])` returns `Ok` (and writes the bytes to
disk). -/
theorem pieceDownloaded_ignores_hash :
    mapGet downloadingState.piecesStatus 0 = some PieceStatus.Downloading ∧
    sha1Bytes [1, 2, 3] ≠
      (downloadingState.torrent.pieces.drop (0 * 20)).take 20 ∧
    (pieceDownloaded true downloadingState 0 [1, 2, 3]).1 = Except.ok () := by
  decide

/-- C1 (amended): with a succeeding disk write, `piece_downloaded(i, bytes)`
returns `Ok` exactly when `piece_status[i] == Downloading`, for any bytes
whatsoever; the SHA-1 comparison against `pieces[i*20..i*20+20]` is
performed by the session's `validate_piece`, which reaches
`piece_downloaded` only when the hex renderings of the two digests are
equal. -/
theorem pieceDownloaded_ok_iff_downloading :
    (∀ (st : CoordState) (i : Nat) (piece : List Nat),
      (pieceDownloaded true st i piece).1 = Except.ok () ↔
        mapGet st.piecesStatus i = some PieceStatus.Downloading) ∧
    (∀ (ioOk : Bool) (st st1 : CoordState) (piece : List Nat) (i : Nat),
      validatePiece ioOk st piece i = some (Except.ok (), st1) →
      hexChars ((st.torrent.pieces.drop (i * 20)).take 20) =
        hexChars (sha1Bytes piece)) := by
  constructor
  · intro st i piece
    cases hg : mapGet st.piecesStatus i with
    | none => simp [pieceDownloaded, hg]
    | some v =>
      by_cases hv : v = PieceStatus.Downloading
      · subst hv
        simp [pieceDownloaded, hg]
      · simp [pieceDownloaded, hg, hv]
  · intro ioOk st st1 piece i h
    unfold validatePiece at h
    simp only [] at h
    cases hs : rustSlice st.torrent.pieces (i * 20) (i * 20 + 20) with
    | none => rw [hs] at h; simp at h
    | some realHash =>
      rw [hs] at h
      have hrh : realHash = (st.torrent.pieces.drop (i * 20)).take 20 := by
        unfold rustSlice at hs
        split at hs
        · injection hs with hs2
          rw [← hs2]
          simp
        · exact absurd hs (by simp)
      by_cases hhex : hexChars realHash = hexChars (sha1Bytes piece)
      · rw [← hrh]
        exact hhex
      · simp only [if_neg hhex] at h
        simp at h

/-- Witness for the amended C1 theorem: committing the empty piece of the
torrent whose recorded digest is the SHA-1 of the empty byte sequence
succeeds, and its hex digests agree. -/
theorem pieceDownloaded_ok_iff_downloading_witness :
    hexChars ((emptyDownloadingState.torrent.pieces.drop (0 * 20)).take 20) =
      hexChars (sha1Bytes []) :=
  pieceDownloaded_ok_iff_downloading.2 true emptyDownloadingState
    emptyFinishedState [] 0 (by decide)

/-- C7 (counterexample): after a hash mismatch the outgoing session does
not continue with the peer.  On the one-piece empty-file torrent, a trace
offering first a corrupt piece and then the correct one ends at the first
attempt: `request_pieces` aborts the piece (back to `Free`, so it was
never re-downloaded from the remaining trace) and returns
`PieceHashDoesNotMatch`, terminating the session. -/
theorem requestPieces_terminates_on_hash_mismatch :
    sha1Bytes [0] ≠ emptyPieceTorrent.pieces ∧
    requestPieces headChoice [255]
        [NetOutcome.ok [0] true, NetOutcome.ok [] true]
        (initState emptyPieceTorrent 1) =
      some (initState emptyPieceTorrent 1,
        some PeerSessionError.PieceHashDoesNotMatch) := by
  decide

/-- C7 (amended): when the downloaded piece fails hash validation, the
session calls `piece_aborted(i)` — putting the piece back to `Free` — and
then returns `PieceHashDoesNotMatch` out of `request_pieces`, terminating
the session instead of re-entering piece selection: the remaining trace
`rest` is never consumed. -/
theorem requestPieces_aborts_then_terminates
    (choice : List Nat → Option Nat) (bf : List Nat) (st st1 : CoordState)
    (i : Nat) (piece : List Nat) (io : Bool) (rest : List NetOutcome)
    (realHash : List Nat)
    (hsel : selectPiece choice bf st = some (some i, st1))
    (hslice : rustSlice st1.torrent.pieces (i * 20) (i * 20 + 20) =
      some realHash)
    (hmismatch : hexChars realHash ≠ hexChars (sha1Bytes piece))
    (hdl : mapGet st1.piecesStatus i = some PieceStatus.Downloading) :
    requestPieces choice bf (NetOutcome.ok piece io :: rest) st =
      some ((pieceAborted st1 i).2,
        some PeerSessionError.PieceHashDoesNotMatch) ∧
    mapGet (pieceAborted st1 i).2.piecesStatus i = some PieceStatus.Free := by
  have hval : validatePiece io st1 piece i =
      some (Except.error PeerSessionError.PieceHashDoesNotMatch, st1) := by
    unfold validatePiece
    simp only []
    rw [hslice]
    simp [hmismatch]
  have habort : pieceAborted st1 i =
      (Except.ok (),
        { st1 with
            piecesStatus := mapInsert st1.piecesStatus i PieceStatus.Free
            downloadingPieces := subWrap st1.downloadingPieces
            freePieces := addWrap st1.freePieces }) := by
    unfold pieceAborted
    rw [hdl]
    simp
  constructor
  · unfold requestPieces
    rw [hsel]
    simp only [hval, habort]
  · rw [habort]
    exact mapGet_mapInsert_self hdl PieceStatus.Free

/-- Witness for the amended C7 theorem: the concrete mismatching download
of the one-piece empty-file torrent aborts piece 0 back to `Free` and
returns the hash-mismatch error. -/
theorem requestPieces_aborts_then_terminates_witness :
    requestPieces headChoice [255] [NetOutcome.ok [0] true]
        (initState emptyPieceTorrent 1) =
      some ((pieceAborted emptyDownloadingState 0).2,
        some PeerSessionError.PieceHashDoesNotMatch) ∧
    mapGet (pieceAborted emptyDownloadingState 0).2.piecesStatus 0 =
      some PieceStatus.Free :=
  requestPieces_aborts_then_terminates headChoice [255]
    (initState emptyPieceTorrent 1) emptyDownloadingState 0 [0] true []
    ((emptyPieceTorrent.pieces.drop 0).take 20)
    (by decide) (by decide) (by decide) (by decide)

theorem beWord_be32 {x : Nat} (hx : x < 2 ^ 32) : beWord (be32 x) = x := by
  simp only [beWord, be32, List.foldl_cons, List.foldl_nil]
  omega

/-- C8 (confirmed): the wire codec round-trips.  For every message, the
encoder emits the 4-byte big-endian length prefix `payload.len() + 1`,
then the id byte, then the payload verbatim, and decoding the id byte and
payload of the encoded frame returns the original message for all ten
message ids; for every handshake over 20-byte `info_hash` and `peer_id`,
the encoder emits the fixed 68 bytes and the decoder returns the original
`info_hash` and `peer_id`. -/
theorem wire_codec_roundtrip :
    (∀ m : Message, m.payload.length + 1 < 2 ^ 32 →
      m.toBytes = be32 (m.payload.length + 1) ++ m.id.toByte :: m.payload ∧
      beWord (m.toBytes.take 4) = m.payload.length + 1 ∧
      Message.fromBytes (m.toBytes.getD 4 0) (m.toBytes.drop 5) =
        Except.ok m) ∧
    (∀ infoHash peerId : List Nat,
      infoHash.length = 20 → peerId.length = 20 →
      (Handshake.new infoHash peerId).toBytes.length = 68 ∧
      handshakeFromBytes (Handshake.new infoHash peerId).toBytes =
        Except.ok (infoHash, peerId)) := by
  constructor
  · rintro ⟨mid, mp⟩ h
    have h2 : mp.length + 1 < 2 ^ 32 := h
    have hmask : mask32 (mp.length + 1) = mp.length + 1 := by
      unfold mask32
      omega
    have htb : (Message.mk mid mp).toBytes =
        be32 (mp.length + 1) ++ mid.toByte :: mp := by
      unfold Message.toBytes
      rw [hmask]
    refine ⟨htb, ?_, ?_⟩
    · rw [htb]
      have h4 : (be32 (mp.length + 1)).length = 4 := by simp [be32]
      rw [List.take_left' h4]
      exact beWord_be32 h2
    · rw [htb]
      simp only [be32, List.cons_append, List.nil_append, List.getD_cons_succ,
        List.getD_cons_zero, List.drop_succ_cons, List.drop_zero]
      cases mid <;> rfl
  · intro infoHash peerId hih hpid
    have hassoc : (Handshake.new infoHash peerId).toBytes =
        19 :: (protocolBytes ++
          (List.replicate 8 0 ++ (infoHash ++ peerId))) := by
      simp [Handshake.new, Handshake.toBytes]
    have hplen : protocolBytes.length = 19 := rfl
    have hlen : (Handshake.new infoHash peerId).toBytes.length = 68 := by
      rw [hassoc]
      simp [hplen, hih, hpid]
    refine ⟨hlen, ?_⟩
    unfold handshakeFromBytes
    have hdrop1 : ((Handshake.new infoHash peerId).toBytes.drop 1).take 19 =
        protocolBytes := by
      rw [hassoc]
      simp only [List.drop_succ_cons, List.drop_zero]
      exact List.take_left' hplen
    have hget0 : (Handshake.new infoHash peerId).toBytes.getD 0 0 = 19 := by
      rw [hassoc]
      rfl
    rw [if_pos ⟨hlen, hget0, hdrop1⟩]
    have hdrop28 : (Handshake.new infoHash peerId).toBytes.drop 28 =
        infoHash ++ peerId := by
      rw [hassoc]
      simp only [List.drop_succ_cons]
      have h27 : (27 : Nat) = protocolBytes.length + 8 := by rw [hplen]
      rw [h27, List.drop_append]
      exact List.drop_left' (by simp)
    have hdrop48 : (Handshake.new infoHash peerId).toBytes.drop 48 = peerId := by
      rw [hassoc]
      simp only [List.drop_succ_cons]
      have h47 : (47 : Nat) = protocolBytes.length + 28 := by rw [hplen]
      rw [h47, List.drop_append]
      have h28 : (28 : Nat) = (List.replicate 8 (0 : Nat)).length + 20 := by simp
      rw [h28, List.drop_append]
      exact List.drop_left' hih
    rw [hdrop28, hdrop48, List.take_left' hih]

/-- Witness for the C8 round-trip theorem at a concrete Request message
and a concrete handshake. -/
theorem wire_codec_roundtrip_witness :
    Message.fromBytes
        ((Message.mk MessageId.Request [0, 0, 0, 1, 0, 0, 64, 0, 0, 0, 64, 0]).toBytes.getD 4 0)
        ((Message.mk MessageId.Request [0, 0, 0, 1, 0, 0, 64, 0, 0, 0, 64, 0]).toBytes.drop 5) =
      Except.ok (Message.mk MessageId.Request [0, 0, 0, 1, 0, 0, 64, 0, 0, 0, 64, 0]) ∧
    handshakeFromBytes
        (Handshake.new (List.replicate 20 7) (List.replicate 20 9)).toBytes =
      Except.ok (List.replicate 20 7, List.replicate 20 9) :=
  ⟨(wire_codec_roundtrip.1
      (Message.mk MessageId.Request [0, 0, 0, 1, 0, 0, 64, 0, 0, 0, 64, 0])
      (by decide)).2.2,
   (wire_codec_roundtrip.2 (List.replicate 20 7) (List.replicate 20 9)
      (by decide) (by decide)).2⟩

theorem bitfieldSetStep_length (bf : List Nat) (p : Nat × PieceStatus) :
    (bitfieldSetStep bf p).length = bf.length := by
  unfold bitfieldSetStep
  split <;> simp

theorem foldl_bitfieldSetStep_length (m : StatusMap) (bf : List Nat) :
    (m.foldl bitfieldSetStep bf).length = bf.length := by
  induction m generalizing bf with
  | nil => rfl
  | cons p rest ih =>
    rw [List.foldl_cons, ih, bitfieldSetStep_length]

theorem testBit_read (byte k : Nat) :
    (((byte >>> k) &&& 1) != 0) = Nat.testBit byte k := by
  simp [Nat.testBit, Nat.and_comm]

theorem bitfieldSetStep_testBit (bf : List Nat) (p : Nat × PieceStatus)
    (hp : p.1 / 8 < bf.length) (j k : Nat) (hj : j < bf.length) (hk : k < 8) :
    Nat.testBit ((bitfieldSetStep bf p).getD j 0) k =
      (Nat.testBit (bf.getD j 0) k ||
        decide (p = (8 * j + (7 - k), PieceStatus.Finished))) := by
  obtain ⟨idx, s⟩ := p
  by_cases hs : s = PieceStatus.Finished
  · subst hs
    have hstep : bitfieldSetStep bf (idx, PieceStatus.Finished) =
        bf.set (idx / 8) (bf.getD (idx / 8) 0 ||| 1 <<< (7 - idx % 8)) := by
      simp [bitfieldSetStep]
    rw [hstep]
    by_cases hjeq : idx / 8 = j
    · subst hjeq
      have hset : ((bf.set (idx / 8)
          (bf.getD (idx / 8) 0 ||| 1 <<< (7 - idx % 8))).getD (idx / 8) 0) =
          bf.getD (idx / 8) 0 ||| 1 <<< (7 - idx % 8) := by
        show ((bf.set (idx / 8) _).get? (idx / 8)).getD 0 = _
        rw [List.get?_set_eq_of_lt _ hp]
        rfl
      rw [hset, Nat.testBit_lor]
      have hshift : (1 <<< (7 - idx % 8)) = 2 ^ (7 - idx % 8) := by
        rw [Nat.shiftLeft_eq, one_mul]
      rw [hshift, Nat.testBit_two_pow]
      have hmod : idx % 8 < 8 := Nat.mod_lt idx (by omega)
      have : (7 - idx % 8 = k) ↔ (idx, PieceStatus.Finished) =
          (8 * (idx / 8) + (7 - k), PieceStatus.Finished) := by
        constructor
        · intro hh
          have : idx = 8 * (idx / 8) + (7 - k) := by omega
          rw [← this]
        · intro hh
          have h1 : idx = 8 * (idx / 8) + (7 - k) := congrArg Prod.fst hh
          omega
      simp [decide_eq_decide.mpr this]
    · have hset : ((bf.set (idx / 8)
          (bf.getD (idx / 8) 0 ||| 1 <<< (7 - idx % 8))).getD j 0) =
          bf.getD j 0 := by
        show ((bf.set (idx / 8) _).get? j).getD 0 = _
        rw [List.get?_set_ne _ _ hjeq]
        rfl
      rw [hset]
      have hne : ¬ ((idx, PieceStatus.Finished) =
          (8 * j + (7 - k), PieceStatus.Finished)) := by
        intro hh
        have h1 : idx = 8 * j + (7 - k) := congrArg Prod.fst hh
        omega
      simp [hne]
  · have hstep : bitfieldSetStep bf (idx, s) = bf := by
      simp [bitfieldSetStep, hs]
    rw [hstep]
    have hne : ¬ ((idx, s) = (8 * j + (7 - k), PieceStatus.Finished)) := by
      intro hh
      exact hs (congrArg Prod.snd hh)
    simp [hne]

theorem foldl_bitfieldSetStep_testBit (m : StatusMap) (bf : List Nat)
    (hkeys : ∀ p ∈ m, p.1 / 8 < bf.length) (j k : Nat)
    (hj : j < bf.length) (hk : k < 8) :
    Nat.testBit ((m.foldl bitfieldSetStep bf).getD j 0) k =
      (Nat.testBit (bf.getD j 0) k ||
        decide ((8 * j + (7 - k), PieceStatus.Finished) ∈ m)) := by
  induction m generalizing bf with
  | nil => simp
  | cons p rest ih =>
    rw [List.foldl_cons]
    have hlen : (bitfieldSetStep bf p).length = bf.length :=
      bitfieldSetStep_length bf p
    have hrest : ∀ q ∈ rest, q.1 / 8 < (bitfieldSetStep bf p).length := by
      intro q hq
      rw [hlen]
      exact hkeys q (List.mem_cons_of_mem p hq)
    rw [ih (bitfieldSetStep bf p) hrest (hlen ▸ hj)]
    rw [bitfieldSetStep_testBit bf p (hkeys p (List.mem_cons_self p rest)) j k hj hk]
    by_cases hp : p = (8 * j + (7 - k), PieceStatus.Finished)
    · simp [hp, List.mem_cons]
    · have hp2 : (8 * j + (7 - k), PieceStatus.Finished) ≠ p :=
        fun hh => hp hh.symm
      by_cases hr : (8 * j + (7 - k), PieceStatus.Finished) ∈ rest <;>
        simp [hp, hp2, hr, List.mem_cons]

/-- C9 (confirmed): for a piece-status map over the indices `0 .. N-1`,
`Bitfield::from` produces `ceil(N / 8)` bytes in which, for every index
`i` below `8 * ceil(N / 8)` — padding positions included — bit
`7 - (i % 8)` of byte `i / 8` is set exactly when `status[i] == Finished`;
in particular every trailing padding bit of the last byte is clear. -/
theorem bitfieldFrom_bits (m : StatusMap) (N : Nat)
    (hlen : m.length = N)
    (hkeys : ∀ p ∈ m, p.1 < N)
    (hnd : (m.map Prod.fst).Nodup) :
    (bitfieldFrom m).length = (N + 7) / 8 ∧
    ∀ i : Nat, i < 8 * ((N + 7) / 8) →
      hasPiece (bitfieldFrom m) i =
        some (decide (mapGet m i = some PieceStatus.Finished)) := by
  have hbflen : (bitfieldFrom m).length = (N + 7) / 8 := by
    unfold bitfieldFrom
    rw [foldl_bitfieldSetStep_length, List.length_replicate, hlen]
  refine ⟨hbflen, ?_⟩
  intro i hi
  have hj : i / 8 < (bitfieldFrom m).length := by
    rw [hbflen]
    omega
  obtain ⟨byte, hbyte⟩ : ∃ a, (bitfieldFrom m).get? (i / 8) = some a :=
    ⟨_, List.get?_eq_get hj⟩
  have hbyteD : (bitfieldFrom m).getD (i / 8) 0 = byte := by
    show ((bitfieldFrom m).get? (i / 8)).getD 0 = byte
    rw [hbyte]
    rfl
  have hk : 7 - i % 8 < 8 := by omega
  have hkeys8 : ∀ p ∈ m, p.1 / 8 < (List.replicate ((m.length + 7) / 8) (0 : Nat)).length := by
    intro p hp
    have := hkeys p hp
    rw [List.length_replicate, hlen]
    omega
  have hj0 : i / 8 < (List.replicate ((m.length + 7) / 8) (0 : Nat)).length := by
    rw [List.length_replicate, hlen]
    omega
  have hchar := foldl_bitfieldSetStep_testBit m
    (List.replicate ((m.length + 7) / 8) 0) hkeys8 (i / 8) (7 - i % 8) hj0 hk
  rw [show (m.foldl bitfieldSetStep (List.replicate ((m.length + 7) / 8) 0)) =
      bitfieldFrom m from rfl] at hchar
  have hzero : (List.replicate ((m.length + 7) / 8) (0 : Nat)).getD (i / 8) 0 = 0 := by
    show ((List.replicate ((m.length + 7) / 8) (0 : Nat)).get? (i / 8)).getD 0 = 0
    rw [List.get?_eq_get hj0]
    simp
  rw [hbyteD, hzero, Nat.zero_testBit, Bool.false_or] at hchar
  have hidx : 8 * (i / 8) + (7 - (7 - i % 8)) = i := by omega
  have hhp : hasPiece (bitfieldFrom m) i =
      some (((byte >>> (7 - i % 8)) &&& 1) != 0) := by
    unfold hasPiece
    rw [hbyte]
  rw [hhp, testBit_read, hchar]
  have hiff : (8 * (i / 8) + (7 - (7 - i % 8)), PieceStatus.Finished) ∈ m ↔
      mapGet m i = some PieceStatus.Finished := by
    rw [hidx]
    exact ⟨fun hmem => mem_mapGet hnd hmem, fun hg => mapGet_mem hg⟩
  rw [decide_eq_decide.mpr hiff]

/-- Witness for the C9 theorem on a three-piece map with piece 0 finished:
one byte, bit 0 set, bits 1 and 2 clear, padding bits 3 to 7 clear. -/
theorem bitfieldFrom_bits_witness :
    hasPiece (bitfieldFrom
        [(0, PieceStatus.Finished), (2, PieceStatus.Free),
         (1, PieceStatus.Downloading)]) 0 = some true ∧
    hasPiece (bitfieldFrom
        [(0, PieceStatus.Finished), (2, PieceStatus.Free),
         (1, PieceStatus.Downloading)]) 7 = some false := by
  have h := bitfieldFrom_bits
    [(0, PieceStatus.Finished), (2, PieceStatus.Free),
     (1, PieceStatus.Downloading)] 3 rfl (by decide) (by decide)
  constructor
  · rw [h.2 0 (by decide)]
    decide
  · rw [h.2 7 (by decide)]
    decide

/-! Counter invariant of the coordinator (claim C2). -/

/-- The coordinator's counter invariant: each atomic counter equals the
corresponding count over the status map, the map has one entry per piece,
and the keys are distinct. -/
def Inv (total : Nat) (st : CoordState) : Prop :=
  st.freePieces = countStatus st.piecesStatus PieceStatus.Free ∧
  st.downloadingPieces = countStatus st.piecesStatus PieceStatus.Downloading ∧
  st.finishedPieces = countStatus st.piecesStatus PieceStatus.Finished ∧
  st.piecesStatus.length = total ∧
  (st.piecesStatus.map Prod.fst).Nodup

/-- Checks that no `select_piece` of the run commits an end-game piece:
each select happens while some piece is `Free`, or it is an end-game call
whose random draw comes up empty (every piece `Finished`). -/
def noEndgameSelect (st : CoordState) : List Op → Bool
  | [] => true
  | op :: rest =>
    (match op with
     | Op.select choice bf =>
       decide (0 < countStatus st.piecesStatus PieceStatus.Free) ||
         decide (selectPiece choice bf st = some (none, st))
     | _ => true) &&
    (match applyOp st op with
     | none => true
     | some st1 => noEndgameSelect st1 rest)

theorem mapInsert_self_value {m : StatusMap} (hnd : (m.map Prod.fst).Nodup)
    {i : Nat} {v : PieceStatus} (h : mapGet m i = some v) :
    mapInsert m i v = m := by
  induction m with
  | nil => rfl
  | cons p rest ih =>
    simp only [List.map_cons, List.nodup_cons] at hnd
    rw [mapGet_cons] at h
    rw [mapInsert_cons]
    by_cases hp : p.1 = i
    · simp only [hp, if_true] at h ⊢
      have hrest : i ∉ rest.map Prod.fst := hp ▸ hnd.1
      rw [mapInsert_not_mem hrest v]
      have : p = (i, v) := by
        cases p
        simp_all
      rw [this]
    · simp only [hp, if_false] at h ⊢
      rw [ih hnd.2 h]

theorem inv_selectPiece {total : Nat} (htot : total < USIZE)
    {choice : List Nat → Option Nat} {bf : List Nat} {st : CoordState}
    {r : Option Nat} {st' : CoordState} (hInv : Inv total st)
    (hgood : 0 < countStatus st.piecesStatus PieceStatus.Free ∨
      selectPiece choice bf st = some (none, st))
    (hsel : selectPiece choice bf st = some (r, st')) : Inv total st' := by
  obtain ⟨hF, hD, hN, hL, hK⟩ := hInv
  rcases hgood with hfree | hnone
  · have hfne : ¬ countStatus st.piecesStatus PieceStatus.Free = 0 := by omega
    unfold selectPiece at hsel
    simp only [hfne, if_false] at hsel
    cases hf : findFreeWithPiece bf
        ((st.piecesStatus.filter (fun p => p.2 = PieceStatus.Free)).map (·.1)) with
    | none => rw [hf] at hsel; exact absurd hsel (by simp)
    | some o =>
      rw [hf] at hsel
      cases o with
      | none =>
        simp only [Option.some.injEq, Prod.mk.injEq] at hsel
        rw [← hsel.2]
        exact ⟨hF, hD, hN, hL, hK⟩
      | some j =>
        simp only [Option.some.injEq, Prod.mk.injEq] at hsel
        obtain ⟨hr, hst⟩ := hsel
        have hmem := findFreeWithPiece_mem hf
        have hjf : (j, PieceStatus.Free) ∈ st.piecesStatus :=
          mem_freeKeys.mp hmem.1
        have hget : mapGet st.piecesStatus j = some PieceStatus.Free :=
          mem_mapGet hK hjf
        have hcF : countStatus (mapInsert st.piecesStatus j
            PieceStatus.Downloading) PieceStatus.Free + 1 =
            countStatus st.piecesStatus PieceStatus.Free := by
          simpa using countStatus_mapInsert hK hget PieceStatus.Downloading
            PieceStatus.Free
        have hcD : countStatus (mapInsert st.piecesStatus j
            PieceStatus.Downloading) PieceStatus.Downloading =
            countStatus st.piecesStatus PieceStatus.Downloading + 1 := by
          simpa using countStatus_mapInsert hK hget PieceStatus.Downloading
            PieceStatus.Downloading
        have hcN : countStatus (mapInsert st.piecesStatus j
            PieceStatus.Downloading) PieceStatus.Finished =
            countStatus st.piecesStatus PieceStatus.Finished := by
          simpa using countStatus_mapInsert hK hget PieceStatus.Downloading
            PieceStatus.Finished
        have hfpos : 0 < countStatus st.piecesStatus PieceStatus.Free := hfree
        have hDle := countStatus_le_length st.piecesStatus PieceStatus.Downloading
        have hFle := countStatus_le_length st.piecesStatus PieceStatus.Free
        have hpart := countStatus_partition st.piecesStatus
        rw [← hst]
        refine ⟨?_, ?_, ?_, ?_, ?_⟩
        · show subWrap st.freePieces = countStatus (mapInsert st.piecesStatus j
            PieceStatus.Downloading) PieceStatus.Free
          rw [hF, subWrap_eq hfpos (by omega)]
          omega
        · show addWrap st.downloadingPieces = countStatus (mapInsert
            st.piecesStatus j PieceStatus.Downloading) PieceStatus.Downloading
          rw [hD, addWrap_eq (by omega)]
          omega
        · show st.finishedPieces = countStatus (mapInsert st.piecesStatus j
            PieceStatus.Downloading) PieceStatus.Finished
          rw [hN]
          omega
        · show (mapInsert st.piecesStatus j PieceStatus.Downloading).length = total
          rw [mapInsert_length]
          exact hL
        · show ((mapInsert st.piecesStatus j PieceStatus.Downloading).map
            Prod.fst).Nodup
          rw [mapInsert_keys]
          exact hK
  · rw [hsel] at hnone
    simp only [Option.some.injEq, Prod.mk.injEq] at hnone
    rw [hnone.2]
    exact ⟨hF, hD, hN, hL, hK⟩

theorem inv_pieceDownloaded {total : Nat} (htot : total < USIZE)
    {ioOk : Bool} {st : CoordState} {i : Nat} {piece : List Nat}
    (hInv : Inv total st) : Inv total (pieceDownloaded ioOk st i piece).2 := by
  obtain ⟨hF, hD, hN, hL, hK⟩ := hInv
  cases hg : mapGet st.piecesStatus i with
  | none =>
    have hres : (pieceDownloaded ioOk st i piece).2 = st := by
      simp [pieceDownloaded, hg]
    rw [hres]
    exact ⟨hF, hD, hN, hL, hK⟩
  | some v =>
    by_cases hv : v = PieceStatus.Downloading
    · subst hv
      cases ioOk with
      | false =>
        have hres : (pieceDownloaded false st i piece).2 = st := by
          simp [pieceDownloaded, hg]
        rw [hres]
        exact ⟨hF, hD, hN, hL, hK⟩
      | true =>
        have hres : (pieceDownloaded true st i piece).2 =
            { st with
                disk := st.disk ++
                  [((i * st.torrent.pieceLength) % 2 ^ 32, piece)]
                piecesStatus := mapInsert st.piecesStatus i PieceStatus.Finished
                downloadingPieces := subWrap st.downloadingPieces
                finishedPieces := addWrap st.finishedPieces } := by
          simp [pieceDownloaded, hg]
        rw [hres]
        have hcF : countStatus (mapInsert st.piecesStatus i
            PieceStatus.Finished) PieceStatus.Free =
            countStatus st.piecesStatus PieceStatus.Free := by
          simpa using countStatus_mapInsert hK hg PieceStatus.Finished
            PieceStatus.Free
        have hcD : countStatus (mapInsert st.piecesStatus i
            PieceStatus.Finished) PieceStatus.Downloading + 1 =
            countStatus st.piecesStatus PieceStatus.Downloading := by
          simpa using countStatus_mapInsert hK hg PieceStatus.Finished
            PieceStatus.Downloading
        have hcN : countStatus (mapInsert st.piecesStatus i
            PieceStatus.Finished) PieceStatus.Finished =
            countStatus st.piecesStatus PieceStatus.Finished + 1 := by
          simpa using countStatus_mapInsert hK hg PieceStatus.Finished
            PieceStatus.Finished
        have hdpos : 0 < countStatus st.piecesStatus PieceStatus.Downloading :=
          countStatus_pos hg
        have hNle := countStatus_le_length st.piecesStatus PieceStatus.Finished
        have hpart := countStatus_partition st.piecesStatus
        refine ⟨?_, ?_, ?_, ?_, ?_⟩
        · show st.freePieces = countStatus (mapInsert st.piecesStatus i
            PieceStatus.Finished) PieceStatus.Free
          rw [hF]
          omega
        · show subWrap st.downloadingPieces = countStatus (mapInsert
            st.piecesStatus i PieceStatus.Finished) PieceStatus.Downloading
          rw [hD, subWrap_eq hdpos (by omega)]
          omega
        · show addWrap st.finishedPieces = countStatus (mapInsert
            st.piecesStatus i PieceStatus.Finished) PieceStatus.Finished
          rw [hN, addWrap_eq (by omega)]
          omega
        · show (mapInsert st.piecesStatus i PieceStatus.Finished).length = total
          rw [mapInsert_length]
          exact hL
        · show ((mapInsert st.piecesStatus i PieceStatus.Finished).map
            Prod.fst).Nodup
          rw [mapInsert_keys]
          exact hK
    · have hres : (pieceDownloaded ioOk st i piece).2 = st := by
        simp [pieceDownloaded, hg, hv]
      rw [hres]
      exact ⟨hF, hD, hN, hL, hK⟩

theorem inv_pieceAborted {total : Nat} (htot : total < USIZE)
    {st : CoordState} {i : Nat}
    (hInv : Inv total st) : Inv total (pieceAborted st i).2 := by
  obtain ⟨hF, hD, hN, hL, hK⟩ := hInv
  cases hg : mapGet st.piecesStatus i with
  | none =>
    have hres : (pieceAborted st i).2 = st := by
      simp [pieceAborted, hg]
    rw [hres]
    exact ⟨hF, hD, hN, hL, hK⟩
  | some v =>
    by_cases hv : v = PieceStatus.Downloading
    · subst hv
      have hres : (pieceAborted st i).2 =
          { st with
              piecesStatus := mapInsert st.piecesStatus i PieceStatus.Free
              downloadingPieces := subWrap st.downloadingPieces
              freePieces := addWrap st.freePieces } := by
        simp [pieceAborted, hg]
      rw [hres]
      have hcF : countStatus (mapInsert st.piecesStatus i
          PieceStatus.Free) PieceStatus.Free =
          countStatus st.piecesStatus PieceStatus.Free + 1 := by
        simpa using countStatus_mapInsert hK hg PieceStatus.Free
          PieceStatus.Free
      have hcD : countStatus (mapInsert st.piecesStatus i
          PieceStatus.Free) PieceStatus.Downloading + 1 =
          countStatus st.piecesStatus PieceStatus.Downloading := by
        simpa using countStatus_mapInsert hK hg PieceStatus.Free
          PieceStatus.Downloading
      have hcN : countStatus (mapInsert st.piecesStatus i
          PieceStatus.Free) PieceStatus.Finished =
          countStatus st.piecesStatus PieceStatus.Finished := by
        simpa using countStatus_mapInsert hK hg PieceStatus.Free
          PieceStatus.Finished
      have hdpos : 0 < countStatus st.piecesStatus PieceStatus.Downloading :=
        countStatus_pos hg
      have hFle := countStatus_le_length st.piecesStatus PieceStatus.Free
      have hpart := countStatus_partition st.piecesStatus
      refine ⟨?_, ?_, ?_, ?_, ?_⟩
      · show addWrap st.freePieces = countStatus (mapInsert st.piecesStatus i
          PieceStatus.Free) PieceStatus.Free
        rw [hF, addWrap_eq (by omega)]
        omega
      · show subWrap st.downloadingPieces = countStatus (mapInsert
          st.piecesStatus i PieceStatus.Free) PieceStatus.Downloading
        rw [hD, subWrap_eq hdpos (by omega)]
        omega
      · show st.finishedPieces = countStatus (mapInsert st.piecesStatus i
          PieceStatus.Free) PieceStatus.Finished
        rw [hN]
        omega
      · show (mapInsert st.piecesStatus i PieceStatus.Free).length = total
        rw [mapInsert_length]
        exact hL
      · show ((mapInsert st.piecesStatus i PieceStatus.Free).map
          Prod.fst).Nodup
        rw [mapInsert_keys]
        exact hK
    · have hres : (pieceAborted st i).2 = st := by
        simp [pieceAborted, hg, hv]
      rw [hres]
      exact ⟨hF, hD, hN, hL, hK⟩

theorem initMap_keys (order : List Nat) :
    (order.map (fun i => (i, PieceStatus.Free))).map Prod.fst = order := by
  induction order with
  | nil => rfl
  | cons a as ih => simp [ih]

theorem initMap_counts (order : List Nat) :
    countStatus (order.map (fun i => (i, PieceStatus.Free))) PieceStatus.Free =
      order.length ∧
    countStatus (order.map (fun i => (i, PieceStatus.Free)))
      PieceStatus.Downloading = 0 ∧
    countStatus (order.map (fun i => (i, PieceStatus.Free)))
      PieceStatus.Finished = 0 := by
  induction order with
  | nil => exact ⟨rfl, rfl, rfl⟩
  | cons a as ih =>
    refine ⟨?_, ?_, ?_⟩
    · simp [List.map_cons, countStatus_cons, ih.1, Nat.add_comm]
    · simp [List.map_cons, countStatus_cons, ih.2.1]
    · simp [List.map_cons, countStatus_cons, ih.2.2]

theorem inv_applyOp {total : Nat} (htot : total < USIZE)
    {st st1 : CoordState} {op : Op} (hInv : Inv total st)
    (hgood : (match op with
      | Op.select choice bf =>
        decide (0 < countStatus st.piecesStatus PieceStatus.Free) ||
          decide (selectPiece choice bf st = some (none, st))
      | _ => true) = true)
    (happ : applyOp st op = some st1) : Inv total st1 := by
  cases op with
  | select choice bf =>
    have hg2 : 0 < countStatus st.piecesStatus PieceStatus.Free ∨
        selectPiece choice bf st = some (none, st) := by
      have h := hgood
      simp only [Bool.or_eq_true, decide_eq_true_eq] at h
      exact h
    simp only [applyOp] at happ
    cases hsel : selectPiece choice bf st with
    | none =>
      rw [hsel] at happ
      exact absurd happ (by simp)
    | some r =>
      rw [hsel] at happ
      simp only [Option.map_some', Option.some.injEq] at happ
      rw [← happ]
      exact inv_selectPiece htot hInv hg2 hsel
  | downloaded ioOk i piece =>
    simp only [applyOp, Option.some.injEq] at happ
    rw [← happ]
    exact inv_pieceDownloaded htot hInv
  | aborted i =>
    simp only [applyOp, Option.some.injEq] at happ
    rw [← happ]
    exact inv_pieceAborted htot hInv
  | readPiece ioOk i off len =>
    simp only [applyOp, Option.some.injEq] at happ
    rw [← happ]
    have hres : (getPiece ioOk st i off len).2 = st := by
      cases hg : mapGet st.piecesStatus i with
      | none => simp [getPiece, hg]
      | some v =>
        by_cases hv : v = PieceStatus.Finished
        · subst hv
          cases ioOk <;> simp [getPiece, hg]
        · simp [getPiece, hg, hv]
    rw [hres]
    exact hInv
  | snapshot =>
    simp only [applyOp, Option.some.injEq] at happ
    rw [← happ]
    exact hInv
  | connect =>
    simp only [applyOp, Option.some.injEq] at happ
    rw [← happ]
    exact hInv
  | disconnect =>
    simp only [applyOp, Option.some.injEq] at happ
    rw [← happ]
    obtain ⟨hF, hD, hN, hL, hK⟩ := hInv
    by_cases hc : st.currentPeers = 0
    · have hres : (peerDisconnected st).2 = st := by
        simp [peerDisconnected, hc]
      rw [hres]
      exact ⟨hF, hD, hN, hL, hK⟩
    · have hres : (peerDisconnected st).2 =
          { st with currentPeers := subWrap st.currentPeers } := by
        simp [peerDisconnected, hc]
      rw [hres]
      exact ⟨hF, hD, hN, hL, hK⟩

theorem runOps_inv {total : Nat} (htot : total < USIZE) :
    ∀ (ops : List Op) (st st' : CoordState), Inv total st →
      noEndgameSelect st ops = true → runOps st ops = some st' →
      Inv total st' := by
  intro ops
  induction ops with
  | nil =>
    intro st st' hInv _ hrun
    simp only [runOps, Option.some.injEq] at hrun
    rw [← hrun]
    exact hInv
  | cons op rest ih =>
    intro st st' hInv hgood hrun
    unfold runOps at hrun
    cases happ : applyOp st op with
    | none => rw [happ] at hrun; exact absurd hrun (by simp)
    | some st1 =>
      rw [happ] at hrun
      unfold noEndgameSelect at hgood
      rw [happ] at hgood
      simp only [Bool.and_eq_true] at hgood
      exact ih st1 st' (inv_applyOp htot hInv hgood.1 happ) hgood.2 hrun

/-- C2 (counterexample): one select on the fresh one-piece torrent leaves
counters `(free, downloading, finished) = (0, 1, 0)`, but a second —
end-game — select mutates the counters to `(2^64 - 1, 2, 0)` (the `usize`
decrement of `free_pieces = 0` wraps around), so the partition invariant
`free + downloading + finished = total_pieces` fails and the end-game call
did not leave the counters unchanged. -/
theorem select_endgame_breaks_counters :
    (runOps (initState zeroHashTorrent 1) [Op.select headChoice [255]]).map
        (fun st => (st.freePieces, st.downloadingPieces, st.finishedPieces)) =
      some (0, 1, 0) ∧
    (runOps (initState zeroHashTorrent 1)
        [Op.select headChoice [255], Op.select headChoice [255]]).map
        (fun st => (st.freePieces, st.downloadingPieces, st.finishedPieces)) =
      some (2 ^ 64 - 1, 2, 0) ∧
    2 ^ 64 - 1 + 2 + 0 ≠ 1 := by
  decide

/-- C2 (amended): along every operation sequence from the initial state in
which each `select_piece` call happens while some piece is still `Free`
(or draws no end-game candidate), the counters satisfy
`free + downloading + finished = total_pieces` at every point; but an
end-game `select_piece` that returns `Some(index)` keeps the status map,
the finished count, the disk and the peer counter unchanged while
incrementing `downloading_pieces` and decrementing `free_pieces` with
wrap-around — it does not leave the counters unchanged. -/
theorem counters_partition_without_endgame :
    (∀ (t : TorrentInfo) (order : List Nat) (ops : List Op) (st' : CoordState),
      order.Nodup → order.length < USIZE →
      noEndgameSelect (initStateWithOrder t order) ops = true →
      runOps (initStateWithOrder t order) ops = some st' →
      st'.freePieces + st'.downloadingPieces + st'.finishedPieces =
        order.length) ∧
    (∀ (choice : List Nat → Option Nat) (bf : List Nat) (st : CoordState)
      (i : Nat) (st' : CoordState),
      countStatus st.piecesStatus PieceStatus.Free = 0 →
      (∀ (l : List Nat) (j : Nat), choice l = some j → j ∈ l) →
      (st.piecesStatus.map Prod.fst).Nodup →
      selectPiece choice bf st = some (some i, st') →
      st'.piecesStatus = st.piecesStatus ∧
      st'.downloadingPieces = addWrap st.downloadingPieces ∧
      st'.freePieces = subWrap st.freePieces ∧
      st'.finishedPieces = st.finishedPieces ∧
      st'.disk = st.disk ∧ st'.currentPeers = st.currentPeers) := by
  constructor
  · intro t order ops st' hnd hlt hgood hrun
    have hkeys := initMap_keys order
    have hcounts := initMap_counts order
    have hInv0 : Inv order.length (initStateWithOrder t order) := by
      refine ⟨?_, ?_, ?_, ?_, ?_⟩
      · exact hcounts.1.symm
      · exact hcounts.2.1.symm
      · exact hcounts.2.2.symm
      · simp [initStateWithOrder]
      · show ((order.map (fun i => (i, PieceStatus.Free))).map Prod.fst).Nodup
        rw [hkeys]
        exact hnd
    have hInv' := runOps_inv hlt ops _ st' hInv0 hgood hrun
    obtain ⟨hF, hD, hN, hL, _⟩ := hInv'
    have hpart := countStatus_partition st'.piecesStatus
    omega
  · intro choice bf st i st' hfree hchoice hnd hsel
    unfold selectPiece at hsel
    simp only [if_pos hfree] at hsel
    cases hc : choice ((st.piecesStatus.filter
        (fun p => p.2 = PieceStatus.Downloading)).map (·.1)) with
    | none => rw [hc] at hsel; simp at hsel
    | some j =>
      rw [hc] at hsel
      simp only [Option.some.injEq, Prod.mk.injEq] at hsel
      obtain ⟨hji, hst⟩ := hsel
      have hjmem : (j, PieceStatus.Downloading) ∈ st.piecesStatus :=
        mem_freeKeys.mp (hchoice _ _ hc)
      have hget : mapGet st.piecesStatus j = some PieceStatus.Downloading :=
        mem_mapGet hnd hjmem
      have hins : mapInsert st.piecesStatus j PieceStatus.Downloading =
          st.piecesStatus := mapInsert_self_value hnd hget
      subst hji
      rw [← hst]
      exact ⟨by simpa using hins, rfl, rfl, rfl, rfl, rfl⟩

/-- The state an end-game `select_piece` produces from
`downloadingState`: the map is unchanged but the counters wrapped. -/
def endgameState : CoordState :=
  { torrent := zeroHashTorrent
    piecesStatus := [(0, PieceStatus.Downloading)]
    currentPeers := 0
    finishedPieces := 0
    downloadingPieces := 2
    freePieces := USIZE - 1
    disk := [] }

/-- Witness for the amended C2 theorem: a one-select run of the one-piece
torrent (counters summing to 1), and a concrete end-game select that keeps
the map but bumps both counters. -/
theorem counters_partition_without_endgame_witness :
    (downloadingState.freePieces + downloadingState.downloadingPieces +
        downloadingState.finishedPieces = (List.range 1).length) ∧
    (endgameState.piecesStatus = downloadingState.piecesStatus ∧
      endgameState.downloadingPieces = addWrap downloadingState.downloadingPieces ∧
      endgameState.freePieces = subWrap downloadingState.freePieces ∧
      endgameState.finishedPieces = downloadingState.finishedPieces ∧
      endgameState.disk = downloadingState.disk ∧
      endgameState.currentPeers = downloadingState.currentPeers) :=
  ⟨counters_partition_without_endgame.1 zeroHashTorrent (List.range 1)
      [Op.select headChoice [255]] downloadingState (by decide) (by decide)
      (by decide) (by decide),
   counters_partition_without_endgame.2 headChoice [255] downloadingState 0
      endgameState (by decide)
      (by
        intro l j hh
        cases l with
        | nil => simp [headChoice] at hh
        | cons a as =>
          simp only [headChoice, List.head?, Option.some.injEq] at hh
          rw [← hh]
          exact List.mem_cons_self a as)
      (by decide) (by decide)⟩

end BtClient
